import Mathlib

set_option autoImplicit false

/-!
Verification of the data pipeline, storage and validation/selection logic of
the speaker-embedding application
(src/pyannote/audio/applications/speaker_embedding_keras.py) and of the
domain-classification task (src/pyannote/audio/labeling/tasks/domain_classification.py).

Python numbers are modelled as rationals, byte-string labels as an arbitrary
type with decidable equality, fallible code as `Except`/`Option`.
-/

namespace DiarizationPyannote

/-! ### Sequence store append loop (`SpeakerEmbedding.data`, lines 349-409)

The loop keeps a running speech-turn identifier `z` (starting at 0) and the
previous label `prev_y` (initialized to the first appended label, inside the
`if i == 0` block).  For each appended `(x, y)` pair it increments `z`
exactly when `y != prev_y`, then stores `Z[i] = z`.  After the loop the three
datasets are truncated with `X.resize(i-1, axis=0)` (and likewise `Y`, `Z`),
where `i` is the number of appended sequences. -/

/-- Tail of the speech-turn-id sequence: `prevY` is the previous label and
`z` the current speech-turn identifier (already stored for the previous
append). -/
def zAux {L : Type} [DecidableEq L] (prevY : L) (z : Nat) : List L → List Nat
  | [] => []
  | y :: ys =>
    let z' := if y = prevY then z else z + 1
    z' :: zAux y z' ys

/-- Speech-turn identifiers `Z[0], ..., Z[n-1]` assigned by the append loop of
`SpeakerEmbedding.data` to a sequence of labels in write order: the first
append stores 0 (since `prev_y` was just set to that very label), and the
identifier is incremented exactly when the incoming label differs from the
immediately preceding one. -/
def zValues {L : Type} [DecidableEq L] : List L → List Nat
  | [] => []
  | y :: ys => 0 :: zAux y 0 ys

theorem zAux_length {L : Type} [DecidableEq L] (prevY : L) (z : Nat) (ys : List L) :
    (zAux prevY z ys).length = ys.length := by
  induction ys generalizing prevY z with
  | nil => rfl
  | cons y ys ih => simp [zAux, ih]

theorem zAux_chain {L : Type} [DecidableEq L] (prevY : L) (z : Nat) (ys : List L) :
    List.Chain' (· ≤ ·) (z :: zAux prevY z ys) := by
  induction ys generalizing prevY z with
  | nil => simp [zAux]
  | cons y ys ih =>
    simp only [zAux]
    refine List.Chain'.cons ?_ (ih y _)
    by_cases h : y = prevY <;> simp [h]

theorem zAux_increments {L : Type} [DecidableEq L] (prevY : L) (z : Nat) (ys : List L) :
    List.zipWith (fun a b => b - a) (z :: zAux prevY z ys) (zAux prevY z ys)
      = List.zipWith (fun x y => if y = x then (0 : Nat) else 1) (prevY :: ys) ys := by
  induction ys generalizing prevY z with
  | nil => rfl
  | cons y ys ih =>
    simp only [zAux, List.zipWith]
    refine congrArg₂ _ ?_ (ih y _)
    by_cases h : y = prevY <;> simp [h]

/-- Claim C5: for every sequence of labels appended in write order, the derived
group-id sequence `Z` has one entry per label, starts at group id 0, is
monotonically non-decreasing, and each consecutive increment is exactly 1 when
the incoming label differs from the immediately preceding append's label and
exactly 0 when it is the same. -/
theorem data_group_ids_spec {L : Type} [DecidableEq L] (ys : List L) :
    (zValues ys).length = ys.length
    ∧ (ys ≠ [] → (zValues ys).head? = some 0)
    ∧ List.Chain' (· ≤ ·) (zValues ys)
    ∧ List.zipWith (fun a b => b - a) (zValues ys) (zValues ys).tail
        = List.zipWith (fun x y => if y = x then (0 : Nat) else 1) ys ys.tail := by
  cases ys with
  | nil => simp [zValues]
  | cons y ys =>
    refine ⟨by simp [zValues, zAux_length], fun _ => rfl, zAux_chain y 0 ys, ?_⟩
    simpa using zAux_increments y 0 ys

/-- Witness for C5 at a concrete label sequence. -/
theorem data_group_ids_spec_witness :
    (["a", "a", "b"] : List String) ≠ []
    ∧ (zValues ["a", "a", "b"]).head? = some 0 :=
  ⟨by decide, (data_group_ids_spec ["a", "a", "b"]).2.1 (by decide)⟩

/-! ### Store build result (`SpeakerEmbedding.data`, lines 332-421)

Datasets `Y` and `Z` are created up front, but `X` is only created inside the
loop when `i == 0`; with zero appended sequences the trailing
`X.resize(i-1, axis=0)` therefore raises `UnboundLocalError` (the local `X`
was never bound).  With `i` appended sequences the three datasets are
truncated to logical length `i - 1`.  The subsequent normalization step
`weights, means, squared_means = zip(*(... for x in X))` unpacks an empty
`zip` when the truncated `X` is empty (exactly one appended sequence),
raising `ValueError`.  The real-valued `mu`/`sigma` attributes themselves are
not needed by any claim and are not modelled. -/

/-- Failure modes of a store build in `SpeakerEmbedding.data`. -/
inductive BuildError where
  /-- Python `UnboundLocalError`: with zero appended sequences the local `X`
  is never created, and `X.resize(i-1, axis=0)` references an unbound name. -/
  | unboundLocalX
  /-- Python `ValueError`: with exactly one appended sequence the store is
  truncated to zero entries and the normalization step unpacks `zip(*())`. -/
  | valueErrorUnpack
  /-- Modelled from the spec: the dedicated `EmptyStoreError` of spec §4.1/§7.
  No class of that kind exists in the code under src/, and no code path
  raises such an error; the constructor exists only to state claim C7. -/
  | emptyStoreError
  deriving DecidableEq

/-- Finalized sequence store: three parallel arrays. -/
structure Store (α L : Type) where
  X : List α
  Y : List L
  Z : List Nat
  deriving DecidableEq

/-- One run of the data-building loop of `SpeakerEmbedding.data` over the
stream of appended `(feature sequence, label)` pairs, including the final
truncation `resize(i-1, axis=0)` of all three datasets. -/
def dataBuild {α L : Type} [DecidableEq L] (items : List (α × L)) :
    Except BuildError (Store α L) :=
  match items with
  | [] => .error .unboundLocalX
  | _ :: _ =>
    let n := items.length - 1
    if n = 0 then .error .valueErrorUnpack
    else .ok { X := (items.map Prod.fst).take n
               Y := (items.map Prod.snd).take n
               Z := (zValues (items.map Prod.snd)).take n }

/-- Claim C1 (failing input): appending N = 2 feature sequences and finalizing
yields a store whose three parallel arrays have logical length 1 = N - 1, not
N; the code truncates to `i-1` rather than `i`. -/
theorem dataBuild_truncates_to_pred :
    dataBuild [((10 : Nat), "spk"), (20, "spk")]
      = Except.ok { X := [10], Y := ["spk"], Z := [0] }
    ∧ ∀ s : Store Nat String,
        dataBuild [((10 : Nat), "spk"), (20, "spk")] = Except.ok s →
          s.X.length ≠ 2 := by
  refine ⟨rfl, ?_⟩
  intro s hs
  have h : (Except.ok s : Except BuildError (Store Nat String))
      = Except.ok { X := [10], Y := ["spk"], Z := [0] } := by
    rw [← hs]
    rfl
  have : s = { X := [10], Y := ["spk"], Z := [0] } := (Except.ok.injEq _ _).mp h
  subst this
  decide

/-- Witness for C1 at the concrete failing input. -/
theorem dataBuild_truncates_to_pred_witness :
    ∀ s : Store Nat String,
      dataBuild [((10 : Nat), "spk"), (20, "spk")] = Except.ok s →
        s.X.length ≠ 2 :=
  dataBuild_truncates_to_pred.2

/-- Claim C7 (counterexample): a store build with zero appended sequences does
not fail with the spec's `EmptyStoreError`; it fails with the unbound-local
error on `X`. -/
theorem dataBuild_empty_not_emptyStoreError :
    dataBuild ([] : List (Nat × String)) = Except.error BuildError.unboundLocalX
    ∧ BuildError.unboundLocalX ≠ BuildError.emptyStoreError :=
  ⟨rfl, by decide⟩

/-- Claim C7 (amended): if zero feature sequences are appended during a store
build, finalizing fails, but with Python's unbound-local-variable error on the
never-created dataset `X`, not with a dedicated `EmptyStoreError`. -/
theorem dataBuild_empty_fails_unboundLocalX (α L : Type) [DecidableEq L] :
    dataBuild ([] : List (α × L)) = Except.error BuildError.unboundLocalX := rfl

/-! ### Epoch selector (`SpeakerEmbedding.apply`, lines 679-683)

The validation log is loaded with `eers = SortedDict(np.loadtxt(fp))`, an
epoch-keyed dictionary built by inserting the `(epoch, value)` records in file
order, so for a duplicated epoch the record appearing later in the file
overwrites the earlier one.  The best epoch is
`int(eers.iloc[np.argmin(eers.values())])`: the key, in epoch-sorted
iteration order, at the position of the first minimum of the values.
(The `compare` mode, lines 824-827, instead deduplicates its plot data with
`~eer.index.duplicated(keep='first')`, keeping the first record; that path
only draws plots and never selects an epoch.) -/

/-- Generic lookup in an association list (first entry whose key matches). -/
def alookup {κ ν : Type} [DecidableEq κ] (k : κ) : List (κ × ν) → Option ν
  | [] => none
  | (k', v) :: rest => if k = k' then some v else alookup k rest

/-- Insertion of one record into the epoch-sorted dictionary: keys stay
sorted and an existing key's value is overwritten, as in Python dict
construction from an iterable of pairs. -/
def insertSorted (k : Nat) (v : ℚ) : List (Nat × ℚ) → List (Nat × ℚ)
  | [] => [(k, v)]
  | (k', v') :: rest =>
    if k < k' then (k, v) :: (k', v') :: rest
    else if k = k' then (k, v) :: rest
    else (k', v') :: insertSorted k v rest

/-- Epoch-sorted dictionary built from the validation log records in file
order (`SortedDict(np.loadtxt(fp))`). -/
def sortedDictOf (log : List (Nat × ℚ)) : List (Nat × ℚ) :=
  log.foldl (fun d kv => insertSorted kv.1 kv.2 d) []

/-- Position of the first minimum among the values still to scan, given the
best value seen so far, its position, and the position of the next value
(np.argmin semantics: ties keep the earliest position). -/
def argminAux (best : ℚ) (bestIdx cur : Nat) : List ℚ → Nat
  | [] => bestIdx
  | v :: vs =>
    if v < best then argminAux v cur (cur + 1) vs
    else argminAux best bestIdx (cur + 1) vs

/-- Position of the first minimum of a list of values (np.argmin); the empty
case is unreachable from `selectBest`. -/
def argminIdx : List ℚ → Nat
  | [] => 0
  | v :: vs => argminAux v 0 1 vs

/-- Best-epoch selection of `SpeakerEmbedding.apply`:
`best_epoch = int(eers.iloc[np.argmin(eers.values())])`.  A log with a single
record is loaded by `np.loadtxt` as a flat 1-d array, on which `SortedDict`
raises `TypeError`; an empty log leads to `np.argmin` of an empty value list,
raising `ValueError`; both are modelled as `none`. -/
def selectBest (log : List (Nat × ℚ)) : Option Nat :=
  if log.length = 1 then none
  else if (sortedDictOf log).isEmpty then none
  else ((sortedDictOf log)[argminIdx ((sortedDictOf log).map Prod.snd)]?).map Prod.fst

theorem alookup_insertSorted (k k' : Nat) (v : ℚ) (d : List (Nat × ℚ)) :
    alookup k (insertSorted k' v d) = if k = k' then some v else alookup k d := by
  induction d with
  | nil => simp [insertSorted, alookup]
  | cons p rest ih =>
    obtain ⟨a, b⟩ := p
    by_cases h1 : k' < a
    · simp [insertSorted, if_pos h1, alookup]
    · by_cases h2 : k' = a
      · subst h2
        simp only [insertSorted, if_neg h1, if_pos rfl, alookup]
        by_cases hk : k = k' <;> simp [alookup, hk]
      · simp only [insertSorted, if_neg h1, if_neg h2, alookup, ih]
        by_cases hk : k = a
        · subst hk
          have hkk' : ¬ k = k' := fun h => h2 h.symm
          simp [hkk']
        · simp [hk]

theorem alookup_sortedDict_foldl (log : List (Nat × ℚ)) :
    ∀ (d : List (Nat × ℚ)) (k : Nat),
      alookup k (log.foldl (fun d kv => insertSorted kv.1 kv.2 d) d)
        = ((log.reverse.find? fun p => p.1 = k).map Prod.snd).or (alookup k d) := by
  induction log with
  | nil => intro d k; simp
  | cons p rest ih =>
    intro d k
    simp only [List.foldl_cons, List.reverse_cons]
    rw [ih, List.find?_append]
    cases hfind : rest.reverse.find? (fun p => decide (p.1 = k)) with
    | some q => simp [Option.or]
    | none =>
      rw [alookup_insertSorted]
      by_cases hk : p.1 = k
      · rw [List.find?_cons_of_pos _ (by simpa using hk), if_pos hk.symm]
        simp [Option.or]
      · have hk' : ¬ k = p.1 := fun hkk => hk hkk.symm
        rw [List.find?_cons_of_neg _ (by simpa using hk), List.find?_nil, if_neg hk']
        simp [Option.or]

theorem insertSorted_keys_subset (k : Nat) (v : ℚ) (d : List (Nat × ℚ)) :
    ∀ a ∈ (insertSorted k v d).map Prod.fst, a = k ∨ a ∈ d.map Prod.fst := by
  induction d with
  | nil =>
    intro a ha
    simp only [insertSorted, List.map_cons, List.map_nil, List.mem_singleton] at ha
    exact Or.inl ha
  | cons p rest ih =>
    obtain ⟨a₀, b₀⟩ := p
    intro a ha
    by_cases h1 : k < a₀
    · simp only [insertSorted, if_pos h1, List.map_cons, List.mem_cons] at ha
      simp only [List.map_cons, List.mem_cons]
      tauto
    · by_cases h2 : k = a₀
      · simp only [insertSorted, if_neg h1, if_pos h2, List.map_cons, List.mem_cons] at ha
        simp only [List.map_cons, List.mem_cons]
        tauto
      · simp only [insertSorted, if_neg h1, if_neg h2, List.map_cons, List.mem_cons] at ha
        simp only [List.map_cons, List.mem_cons]
        rcases ha with ha | ha
        · tauto
        · rcases ih a ha with h | h <;> tauto

theorem insertSorted_keys_sorted (k : Nat) (v : ℚ) :
    ∀ d : List (Nat × ℚ), List.Pairwise (· < ·) (d.map Prod.fst) →
      List.Pairwise (· < ·) ((insertSorted k v d).map Prod.fst) := by
  intro d
  induction d with
  | nil => intro _; simp [insertSorted]
  | cons p rest ih =>
    obtain ⟨a₀, b₀⟩ := p
    intro hd
    simp only [List.map_cons, List.pairwise_cons] at hd
    obtain ⟨hall, hrest⟩ := hd
    by_cases h1 : k < a₀
    · simp only [insertSorted, if_pos h1, List.map_cons, List.pairwise_cons]
      refine ⟨?_, hall, hrest⟩
      intro a ha
      simp only [List.map_cons, List.mem_cons] at ha
      rcases ha with rfl | ha
      · exact h1
      · exact lt_trans h1 (hall a ha)
    · by_cases h2 : k = a₀
      · simp only [insertSorted, if_neg h1, if_pos h2, List.map_cons, List.pairwise_cons]
        exact ⟨fun a ha => h2 ▸ hall a ha, hrest⟩
      · simp only [insertSorted, if_neg h1, if_neg h2, List.map_cons, List.pairwise_cons]
        refine ⟨?_, ih hrest⟩
        intro a ha
        rcases insertSorted_keys_subset k v rest a ha with rfl | ha'
        · omega
        · exact hall a ha'

theorem sortedDict_keys_sorted (log : List (Nat × ℚ)) :
    List.Pairwise (· < ·) ((sortedDictOf log).map Prod.fst) := by
  suffices h : ∀ d : List (Nat × ℚ), List.Pairwise (· < ·) (d.map Prod.fst) →
      List.Pairwise (· < ·)
        ((log.foldl (fun d kv => insertSorted kv.1 kv.2 d) d).map Prod.fst) by
    exact h [] (by simp)
  induction log with
  | nil => intro d hd; simpa using hd
  | cons p rest ih =>
    intro d hd
    exact ih _ (insertSorted_keys_sorted p.1 p.2 d hd)

theorem alookup_getElem_of_sorted :
    ∀ (d : List (Nat × ℚ)), List.Pairwise (· < ·) (d.map Prod.fst) →
      ∀ (i : Nat) (p : Nat × ℚ), d[i]? = some p → alookup p.1 d = some p.2 := by
  intro d
  induction d with
  | nil => intro _ i p hp; simp at hp
  | cons q rest ih =>
    obtain ⟨a₀, b₀⟩ := q
    intro hd i p hp
    simp only [List.map_cons, List.pairwise_cons] at hd
    obtain ⟨hall, hrest⟩ := hd
    cases i with
    | zero =>
      simp only [List.getElem?_cons_zero, Option.some.injEq] at hp
      subst hp
      simp [alookup]
    | succ j =>
      have hp' : rest[j]? = some p := by simpa using hp
      have hm : p ∈ rest := List.getElem?_mem hp'
      have hne : ¬ p.1 = a₀ := by
        have := hall p.1 (List.mem_map_of_mem Prod.fst hm)
        omega
      simp only [alookup, if_neg hne]
      exact ih hrest j p hp'

theorem argminAux_spec :
    ∀ (vs : List ℚ) (best : ℚ) (b c : Nat),
      (argminAux best b c vs = b ∧ ∀ v ∈ vs, best ≤ v)
      ∨ (∃ j m, vs[j]? = some m ∧ argminAux best b c vs = c + j
          ∧ m ≤ best ∧ ∀ v ∈ vs, m ≤ v) := by
  intro vs
  induction vs with
  | nil => intro best b c; exact Or.inl ⟨rfl, by simp⟩
  | cons v vs ih =>
    intro best b c
    by_cases h : v < best
    · rcases ih v c (c + 1) with ⟨heq, hall⟩ | ⟨j, m, hj, heq, hle, hall⟩
      · refine Or.inr ⟨0, v, by simp, ?_, le_of_lt h, ?_⟩
        · simp only [argminAux, if_pos h]; omega
        · intro w hw
          rcases List.mem_cons.mp hw with rfl | hw'
          · exact le_refl w
          · exact hall w hw'
      · refine Or.inr ⟨j + 1, m, by simpa using hj, ?_,
          le_trans hle (le_of_lt h), ?_⟩
        · simp only [argminAux, if_pos h]; omega
        · intro w hw
          rcases List.mem_cons.mp hw with rfl | hw'
          · exact hle
          · exact hall w hw'
    · have hbv : best ≤ v := not_lt.mp h
      rcases ih best b (c + 1) with ⟨heq, hall⟩ | ⟨j, m, hj, heq, hle, hall⟩
      · refine Or.inl ⟨?_, ?_⟩
        · simp only [argminAux, if_neg h]; omega
        · intro w hw
          rcases List.mem_cons.mp hw with rfl | hw'
          · exact hbv
          · exact hall w hw'
      · refine Or.inr ⟨j + 1, m, by simpa using hj, ?_, hle, ?_⟩
        · simp only [argminAux, if_neg h]; omega
        · intro w hw
          rcases List.mem_cons.mp hw with rfl | hw'
          · exact le_trans hle hbv
          · exact hall w hw'

theorem argminIdx_spec (vs : List ℚ) (hvs : vs ≠ []) :
    ∃ m, vs[argminIdx vs]? = some m ∧ ∀ v ∈ vs, m ≤ v := by
  cases vs with
  | nil => exact absurd rfl hvs
  | cons v vs =>
    rcases argminAux_spec vs v 0 1 with ⟨heq, hall⟩ | ⟨j, m, hj, heq, hle, hall⟩
    · refine ⟨v, ?_, ?_⟩
      · simp [argminIdx, heq]
      · intro w hw
        rcases List.mem_cons.mp hw with rfl | hw'
        · exact le_refl w
        · exact hall w hw'
    · refine ⟨m, ?_, ?_⟩
      · have h1 : argminIdx (v :: vs) = j + 1 := by
          simp only [argminIdx]; omega
        rw [h1]
        simpa using hj
      · intro w hw
        rcases List.mem_cons.mp hw with rfl | hw'
        · exact hle
        · exact hall w hw'

/-- Claim C2 (counterexample): on the log
`[(1, 0.3), (2, 0.1), (2, 0.5), (3, 0.2)]`, the apply-mode selector's
dictionary keeps `(2, 0.5)` (the later record), not `(2, 0.1)`, and the
selected best epoch is 3, not 2. -/
theorem selectBest_example_keeps_last_selects_3 :
    sortedDictOf [(1, mkRat 3 10), (2, mkRat 1 10), (2, mkRat 5 10), (3, mkRat 2 10)]
      = [(1, mkRat 3 10), (2, mkRat 5 10), (3, mkRat 2 10)]
    ∧ selectBest [(1, mkRat 3 10), (2, mkRat 1 10), (2, mkRat 5 10), (3, mkRat 2 10)]
      = some 3
    ∧ selectBest [(1, mkRat 3 10), (2, mkRat 1 10), (2, mkRat 5 10), (3, mkRat 2 10)]
      ≠ some 2 := by
  refine ⟨by decide, by decide, by decide⟩

/-- Claim C2 (amended): the epoch selector used by `apply` drops duplicate
epochs keeping the last occurrence (the deduplicated value of every epoch is
the value of its last record in the log), and the selected epoch is one whose
deduplicated value is minimal over all deduplicated records. -/
theorem selectBest_keeps_last_and_minimizes (log : List (Nat × ℚ)) (k e : Nat)
    (h : selectBest log = some e) :
    alookup k (sortedDictOf log)
      = (log.reverse.find? fun p => p.1 = k).map Prod.snd
    ∧ ∃ v, alookup e (sortedDictOf log) = some v
        ∧ ∀ p ∈ sortedDictOf log, v ≤ p.2 := by
  constructor
  · have h0 := alookup_sortedDict_foldl log [] k
    simpa [sortedDictOf, alookup] using h0
  · simp only [selectBest] at h
    by_cases h1 : log.length = 1
    · rw [if_pos h1] at h; exact absurd h (by simp)
    · rw [if_neg h1] at h
      by_cases h2 : (sortedDictOf log).isEmpty
      · rw [if_pos h2] at h; exact absurd h (by simp)
      · rw [if_neg h2] at h
        have hne : (sortedDictOf log).map Prod.snd ≠ [] := by
          intro hnil
          rw [List.map_eq_nil_iff] at hnil
          rw [hnil] at h2
          simp at h2
        obtain ⟨m, hm, hall⟩ := argminIdx_spec _ hne
        rw [List.getElem?_map] at hm
        cases hp : (sortedDictOf log)[argminIdx ((sortedDictOf log).map Prod.snd)]? with
        | none => rw [hp] at h; simp at h
        | some p =>
          rw [hp] at h hm
          have he : p.1 = e := by simpa using h
          have hv : p.2 = m := by simpa using hm
          refine ⟨p.2, ?_, ?_⟩
          · rw [← he]
            exact alookup_getElem_of_sorted _ (sortedDict_keys_sorted log) _ p hp
          · intro q hq
            rw [hv]
            exact hall q.2 (List.mem_map_of_mem Prod.snd hq)

/-- Witness for C2's amended theorem at the example log. -/
theorem selectBest_keeps_last_and_minimizes_witness :
    alookup 2 (sortedDictOf
        [(1, mkRat 3 10), (2, mkRat 1 10), (2, mkRat 5 10), (3, mkRat 2 10)])
      = ([(1, mkRat 3 10), (2, mkRat 1 10), (2, mkRat 5 10),
          (3, mkRat 2 10)].reverse.find? fun p => p.1 = 2).map Prod.snd
    ∧ ∃ v, alookup 3 (sortedDictOf
          [(1, mkRat 3 10), (2, mkRat 1 10), (2, mkRat 5 10), (3, mkRat 2 10)])
        = some v
      ∧ ∀ p ∈ sortedDictOf
            [(1, mkRat 3 10), (2, mkRat 1 10), (2, mkRat 5 10), (3, mkRat 2 10)],
          v ≤ p.2 :=
  selectBest_keeps_last_and_minimizes
    [(1, mkRat 3 10), (2, mkRat 1 10), (2, mkRat 5 10), (3, mkRat 2 10)]
    2 3 (by decide)

/-! ### Batched internal-embedding computation
(`SpeakerEmbedding._validate_epoch_default`, lines 650-668)

With `batch_size = 2048` hardcoded, the code computes
`batches = list(np.arange(0, len(XX), batch_size))`, appends the final
boundary `len(XX)` only when `len(XX) % batch_size` is nonzero, and stacks
`embed(XX[i:j])` for consecutive boundary pairs
(`np.vstack(embed(XX[i:j]) for i, j in pairwise(batches))`).
Model inference maps each input row independently, so `embed` on a batch is
modelled as mapping an abstract per-row function over the batch rows. -/

/-- Model of `np.arange(0, stop, step)` for natural arguments. -/
def arange (stop step : Nat) : List Nat :=
  (List.range ((stop + step - 1) / step)).map (fun k => k * step)

/-- Model of `pyannote.core.util.pairwise`: consecutive pairs of a list. -/
def pairwiseSucc {β : Type} : List β → List (β × β)
  | a :: b :: rest => (a, b) :: pairwiseSucc (b :: rest)
  | _ => []

/-- Batch boundaries of `_validate_epoch_default`: `np.arange(0, len(XX),
batch_size)` plus the final boundary `len(XX)`, appended only when
`len(XX) % batch_size` is nonzero. -/
def batchBoundaries (lenXX batchSize : Nat) : List Nat :=
  let base := arange lenXX batchSize
  if lenXX % batchSize ≠ 0 then base ++ [lenXX] else base

/-- Batched internal-embedding computation
`np.vstack(embed(XX[i:j]) for i, j in pairwise(batches))`, with the
per-sequence inference abstracted by `f` and `np.vstack` concatenating the
batch outputs in input order. -/
def batchedEmbed {β γ : Type} (f : β → γ) (xs : List β)
    (batchSize : Nat) : List γ :=
  ((pairwiseSucc (batchBoundaries xs.length batchSize)).map
    (fun ij => ((xs.drop ij.1).take (ij.2 - ij.1)).map f)).flatten

/-- Modelled from the spec: running inference over every individual sequence
in one pass, outputs stacked in input order (the reference computation that
claim C4 says the batched computation refines). -/
def onePassEmbed {β γ : Type} (f : β → γ) (xs : List β) : List γ :=
  xs.map f

/-- Claim C4 (failing input): when `len(XX)` is a multiple of the hardcoded
batch size 2048, the final boundary is never appended and the last full batch
is dropped.  With 2048 sequences, `batches = [0]`, `pairwise(batches)` is
empty, and no sequence at all is embedded; with 4096 sequences only the first
2048 are embedded.  The one-pass reference embeds all of them. -/
theorem batchedEmbed_drops_final_batch :
    (∀ (xs : List Nat) (f : Nat → Nat), xs.length = 2048 →
        batchedEmbed f xs 2048 = [])
    ∧ (∀ (xs : List Nat) (f : Nat → Nat), xs.length = 2048 →
        (onePassEmbed f xs).length = 2048)
    ∧ (∀ (xs : List Nat) (f : Nat → Nat), xs.length = 4096 →
        batchedEmbed f xs 2048 = (xs.take 2048).map f)
    ∧ (∀ (xs : List Nat) (f : Nat → Nat), xs.length = 4096 →
        (onePassEmbed f xs).length = 4096) := by
  have hb1 : batchBoundaries 2048 2048 = [0] := by decide
  have hb2 : batchBoundaries 4096 2048 = [0, 2048] := by decide
  refine ⟨fun xs f h => ?_,
    fun xs f h => by unfold onePassEmbed; rw [List.length_map, h],
    fun xs f h => ?_,
    fun xs f h => by unfold onePassEmbed; rw [List.length_map, h]⟩
  · rw [batchedEmbed, h, hb1]
    rfl
  · rw [batchedEmbed, h, hb2]
    simp only [pairwiseSucc, List.map_cons, List.map_nil, List.flatten_cons,
      List.flatten_nil, List.append_nil, List.drop_zero, Nat.sub_zero]

/-- Witness for C4 at concrete stores of 2048 identical sequences. -/
theorem batchedEmbed_drops_final_batch_witness :
    batchedEmbed (fun x => x + 1) (List.replicate 2048 0) 2048 = []
    ∧ (onePassEmbed (fun x => x + 1) (List.replicate 2048 0)).length = 2048 :=
  ⟨batchedEmbed_drops_final_batch.1 _ _ (List.length_replicate 2048 0),
   batchedEmbed_drops_final_batch.2.1 _ _ (List.length_replicate 2048 0)⟩

/-! ### Apply-mode per-file deduplication (`SpeakerEmbedding.apply`, lines 707-733)

The apply loop iterates the `development`, `test` and `train` subsets in that
order (subsets raising `NotImplementedError` are skipped), keeps a
`processed_uris` set of unique file identifiers, skips any file whose
identifier is already in the set, and otherwise computes and dumps the
embedding and adds the identifier.  The probe `next(file_generator)` would
raise an uncaught `StopIteration` on an implemented-but-empty subset, so runs
are considered with every implemented subset nonempty. -/

/-- The files dumped by the apply loop, in iteration order, starting from the
given `processed_uris` contents. -/
def applyDedup {F U : Type} [DecidableEq U] (uri : F → U) :
    List U → List F → List F
  | _, [] => []
  | processed, f :: fs =>
    if uri f ∈ processed then applyDedup uri processed fs
    else f :: applyDedup uri (uri f :: processed) fs

/-- One apply run: `none` models a subset whose iteration raises
`NotImplementedError` (skipped); implemented subsets are concatenated in
iteration order and deduplicated by unique file identifier. -/
def applyDumpedFiles {F U : Type} [DecidableEq U] (uri : F → U)
    (subsets : List (Option (List F))) : List F :=
  applyDedup uri [] (subsets.filterMap id).flatten

theorem applyDedup_uris_nodup {F U : Type} [DecidableEq U] (uri : F → U) :
    ∀ (files : List F) (processed : List U),
      ((applyDedup uri processed files).map uri).Nodup
      ∧ ∀ u ∈ (applyDedup uri processed files).map uri, u ∉ processed := by
  intro files
  induction files with
  | nil => intro processed; simp [applyDedup]
  | cons f fs ih =>
    intro processed
    by_cases hf : uri f ∈ processed
    · simpa [applyDedup, hf] using ih processed
    · obtain ⟨h1, h2⟩ := ih (uri f :: processed)
      simp only [applyDedup, if_neg hf, List.map_cons, List.nodup_cons]
      refine ⟨⟨fun hmem => ?_, h1⟩, ?_⟩
      · exact (h2 _ hmem) (List.mem_cons_self _ _)
      · intro u hu
        rcases List.mem_cons.mp hu with rfl | hu'
        · exact hf
        · intro hup
          exact (h2 u hu') (List.mem_cons_of_mem _ hup)

theorem applyDedup_eq_firstOcc {F U : Type} [DecidableEq U] (uri : F → U) :
    ∀ (files : List F) (processed : List U),
      applyDedup uri processed files
        = (List.range files.length).filterMap (fun k =>
            files[k]?.bind (fun f =>
              if uri f ∈ processed ∨ uri f ∈ (files.take k).map uri
              then none else some f)) := by
  intro files
  induction files with
  | nil => intro processed; rfl
  | cons f fs ih =>
    intro processed
    simp only [List.length_cons, List.range_succ_eq_map, List.filterMap_cons,
      List.filterMap_map]
    by_cases hf : uri f ∈ processed
    · have h0 : ((f :: fs)[0]?.bind fun g =>
          if uri g ∈ processed ∨ uri g ∈ (((f :: fs)).take 0).map uri
          then none else some g) = none := by
        simp [hf]
      rw [h0]
      show applyDedup uri processed (f :: fs) = _
      rw [applyDedup, if_pos hf, ih processed]
      apply List.filterMap_congr
      intro k hk
      rcases hfk : fs[k]? with _ | g
      · simp [Function.comp, hfk, Nat.succ_eq_add_one]
      · have hget : (f :: fs)[k + 1]? = some g := by simpa using hfk
        simp only [Function.comp, Nat.succ_eq_add_one, hget, hfk,
          Option.some_bind, List.take_succ_cons, List.map_cons, List.mem_cons]
        by_cases hc : uri g ∈ processed ∨ uri g ∈ (fs.take k).map uri
        · have hcx : uri g ∈ processed
              ∨ (uri g = uri f ∨ uri g ∈ (fs.take k).map uri) := by
            rcases hc with h | h
            · exact Or.inl h
            · exact Or.inr (Or.inr h)
          rw [if_pos hc, if_pos hcx]
        · have hcon : ¬ (uri g ∈ processed
              ∨ (uri g = uri f ∨ uri g ∈ (fs.take k).map uri)) := by
            rintro (h | h | h)
            · exact hc (Or.inl h)
            · exact hc (Or.inl (h ▸ hf))
            · exact hc (Or.inr h)
          rw [if_neg hc, if_neg hcon]
    · have h0 : ((f :: fs)[0]?.bind fun g =>
          if uri g ∈ processed ∨ uri g ∈ (((f :: fs)).take 0).map uri
          then none else some g) = some f := by
        simp [hf]
      rw [h0]
      show applyDedup uri processed (f :: fs) = _
      rw [applyDedup, if_neg hf, ih (uri f :: processed)]
      refine congrArg _ ?_
      apply List.filterMap_congr
      intro k hk
      rcases hfk : fs[k]? with _ | g
      · simp [Function.comp, hfk, Nat.succ_eq_add_one]
      · have hget : (f :: fs)[k + 1]? = some g := by simpa using hfk
        simp only [Function.comp, Nat.succ_eq_add_one, hget, hfk,
          Option.some_bind, List.take_succ_cons, List.map_cons, List.mem_cons]
        by_cases hc : (uri g = uri f ∨ uri g ∈ processed)
            ∨ uri g ∈ (fs.take k).map uri
        · have hcx : uri g ∈ processed
              ∨ (uri g = uri f ∨ uri g ∈ (fs.take k).map uri) := by
            rcases hc with (h | h) | h
            · exact Or.inr (Or.inl h)
            · exact Or.inl h
            · exact Or.inr (Or.inr h)
          rw [if_pos hc, if_pos hcx]
        · have hcon : ¬ (uri g ∈ processed
              ∨ (uri g = uri f ∨ uri g ∈ (fs.take k).map uri)) := by
            rintro (h | h | h)
            · exact hc (Or.inl (Or.inr h))
            · exact hc (Or.inl (Or.inl h))
            · exact hc (Or.inr h)
          rw [if_neg hc, if_neg hcon]

/-- Claim C9: in apply mode, the embedding is computed and dumped at most once
per unique file identifier (the dumped identifiers are pairwise distinct),
and the dumped files are exactly the files, across the implemented subsets in
iteration order, whose identifier did not occur earlier in the enumeration.
Runs are restricted to those where no implemented subset is empty (there the
uncaught `StopIteration` of the `next()` probe would abort `apply`). -/
theorem apply_dumps_once_per_uri {F U : Type} [DecidableEq U] (uri : F → U)
    (subsets : List (Option (List F)))
    (hne : ∀ l ∈ subsets, l ≠ some []) :
    ((applyDumpedFiles uri subsets).map uri).Nodup
    ∧ applyDumpedFiles uri subsets
        = (List.range ((subsets.filterMap id).flatten).length).filterMap (fun k =>
            ((subsets.filterMap id).flatten)[k]?.bind (fun f =>
              if uri f ∈ (((subsets.filterMap id).flatten).take k).map uri
              then none else some f)) := by
  constructor
  · exact (applyDedup_uris_nodup uri _ []).1
  · rw [applyDumpedFiles, applyDedup_eq_firstOcc]
    apply List.filterMap_congr
    intro k hk
    rcases hfk : ((subsets.filterMap id).flatten)[k]? with _ | g
    · rfl
    · simp only [Option.some_bind]
      have hiff : (uri g ∈ ([] : List U)
            ∨ uri g ∈ (((subsets.filterMap id).flatten).take k).map uri)
          ↔ uri g ∈ (((subsets.filterMap id).flatten).take k).map uri := by
        simp
      by_cases hc : uri g ∈ (((subsets.filterMap id).flatten).take k).map uri
      · rw [if_pos (hiff.mpr hc), if_pos hc]
      · rw [if_neg (fun h => hc (hiff.mp h)), if_neg hc]

/-- Witness for C9 on a concrete protocol: the `test` subset raises
`NotImplementedError`, and file 20 appears in both `development` and `train`
but is dumped only once. -/
theorem apply_dumps_once_per_uri_witness :
    ((applyDumpedFiles (fun f => f) [some [10, 20], none, some [20, 30]]).map
        (fun f => f)).Nodup
    ∧ applyDumpedFiles (fun f => f) [some [10, 20], none, some [20, 30]]
        = (List.range (([some [10, 20], none,
              some [(20 : Nat), 30]].filterMap id).flatten).length).filterMap (fun k =>
            (([some [10, 20], none, some [20, 30]].filterMap id).flatten)[k]?.bind
              (fun f =>
                if f ∈ ((([some [10, 20], none,
                      some [20, 30]].filterMap id).flatten).take k).map (fun f => f)
                then none else some f)) :=
  apply_dumps_once_per_uri (fun f => f) [some [10, 20], none, some [20, 30]]
    (by
      intro l hl
      rcases List.mem_cons.mp hl with rfl | hl
      · decide
      rcases List.mem_cons.mp hl with rfl | hl
      · decide
      rcases List.mem_cons.mp hl with rfl | hl
      · decide
      exact absurd hl (List.not_mem_nil l))

/-! ### Domain-classification validation
(src/pyannote/audio/labeling/tasks/domain_classification.py, lines 106-163)

`get_classes` returns `sorted(set(file[domain] for file in self.files))`.
`validation` computes, per validated file, `np.argmax(file["scores"], axis=1)`
(first maximum per frame), takes `Counter(y_pred).most_common(1)[0][0]` (the
most frequent frame label; ties keep the first-encountered label, since
`Counter` preserves first-insertion order and the selection is stable), takes
`domains.index(file[domain])` as groundtruth, and returns the mean of the
equality indicators as the metric record
`{"metric": "accuracy", "minimize": False, "value": float(accuracy)}`.
`np.argmax` of an empty axis, `most_common(1)[0]` of an empty prediction
list and `list.index` of an absent domain raise, and `np.mean` of an empty
file list is NaN; all are modelled as `none`. -/

/-- A validated protocol file: per-frame class scores and the file's domain. -/
structure VFile (D : Type) where
  scores : List (List ℚ)
  domain : D

/-- Position of the first maximum among the values still to scan, given the
best value seen so far, its position, and the position of the next value
(np.argmax semantics: ties keep the earliest position). -/
def argmaxAux (best : ℚ) (bestIdx cur : Nat) : List ℚ → Nat
  | [] => bestIdx
  | v :: vs =>
    if best < v then argmaxAux v cur (cur + 1) vs
    else argmaxAux best bestIdx (cur + 1) vs

/-- Model of `np.argmax` over one row of scores; `np.argmax` of an empty row
raises `ValueError`. -/
def argmaxRow : List ℚ → Option Nat
  | [] => none
  | v :: vs => some (argmaxAux v 0 1 vs)

/-- Distinct elements in order of first occurrence (the iteration order of a
Python `Counter`, which preserves first insertion). -/
def distinctFirstAux {A : Type} [DecidableEq A] (seen : List A) : List A → List A
  | [] => []
  | a :: as =>
    if a ∈ seen then distinctFirstAux seen as
    else a :: distinctFirstAux (a :: seen) as

/-- Distinct elements of a list in order of first occurrence. -/
def distinctFirst {A : Type} [DecidableEq A] : List A → List A :=
  distinctFirstAux []

/-- Model of `Counter(l).most_common(1)[0][0]`: an element of maximal
multiplicity, ties broken towards the earliest first occurrence;
`most_common(1)[0]` of an empty list raises `IndexError`. -/
def mostCommon {A : Type} [DecidableEq A] (l : List A) : Option A :=
  match distinctFirst l with
  | [] => none
  | a :: as => some (as.foldl (fun best x => if l.count best < l.count x then x else best) a)

/-- Model of `list.index`: position of the first occurrence; `index` of an
absent element raises `ValueError`. -/
def indexOf? {A : Type} [DecidableEq A] (x : A) : List A → Option Nat
  | [] => none
  | a :: as => if a = x then some 0 else (indexOf? x as).map (fun n => n + 1)

/-- Sequential collection of per-item optional results: any failure aborts
the whole computation (the Python loop raises at the offending item). -/
def collectSome {A B : Type} (g : A → Option B) : List A → Option (List B)
  | [] => some []
  | a :: as =>
    match g a, collectSome g as with
    | some b, some bs => some (b :: bs)
    | _, _ => none

/-- `DomainClassification.get_classes`:
`sorted(set(file[self.hparams.domain] for file in self.files))`. -/
def get_classes {D : Type} [LinearOrder D] (files : List (VFile D)) : List D :=
  (distinctFirst (files.map (fun f => f.domain))).insertionSort (· ≤ ·)

/-- `DomainClassification.validation`: file-level prediction is the most
frequent per-frame argmax, groundtruth is the index of the file's domain in
`domains`, and the value is the fraction of files on which they agree. -/
def validation {D : Type} [DecidableEq D] (domains : List D)
    (files : List (VFile D)) : Option (String × Bool × ℚ) :=
  if files.isEmpty then none
  else
    match collectSome (fun f => (collectSome argmaxRow f.scores).bind mostCommon) files,
          collectSome (fun f => indexOf? f.domain domains) files with
    | some preds, some trues =>
      some ("accuracy", false,
        mkRat ((trues.zip preds).countP fun tp => decide (tp.1 = tp.2)) files.length)
    | _, _ => none

theorem collectSome_eq_filterMap {A B : Type} (g : A → Option B) :
    ∀ l : List A, (∀ a ∈ l, (g a).isSome) →
      collectSome g l = some (l.filterMap g) := by
  intro l
  induction l with
  | nil => intro _; rfl
  | cons a as ih =>
    intro h
    have ha : (g a).isSome := h a (List.mem_cons_self a as)
    obtain ⟨b, hb⟩ := Option.isSome_iff_exists.mp ha
    rw [collectSome, hb, ih (fun x hx => h x (List.mem_cons_of_mem a hx)),
      List.filterMap_cons, hb]

theorem zip_filterMap_countP {A : Type} (T P : A → Option Nat) :
    ∀ l : List A, (∀ a ∈ l, (T a).isSome) → (∀ a ∈ l, (P a).isSome) →
      ((l.filterMap T).zip (l.filterMap P)).countP (fun tp => decide (tp.1 = tp.2))
        = l.countP (fun a => decide (T a = P a)) := by
  intro l
  induction l with
  | nil => intro _ _; rfl
  | cons a as ih =>
    intro hT hP
    obtain ⟨t, ht⟩ := Option.isSome_iff_exists.mp (hT a (List.mem_cons_self a as))
    obtain ⟨p, hp⟩ := Option.isSome_iff_exists.mp (hP a (List.mem_cons_self a as))
    rw [List.filterMap_cons, List.filterMap_cons, ht, hp]
    simp only [List.zip_cons_cons, List.countP_cons, ht, hp,
      ih (fun x hx => hT x (List.mem_cons_of_mem a hx))
         (fun x hx => hP x (List.mem_cons_of_mem a hx))]
    simp

/-- Claim C10: for every non-empty list of validated files whose per-file
prediction and groundtruth computations succeed, `DomainClassification.validation`
returns the record with metric `"accuracy"` and `minimize = False` whose value
is the fraction of files for which the most frequent per-frame argmax of the
file's scores equals the index of the file's domain in the sorted list of
distinct domain classes, and this value lies in `[0, 1]`. -/
theorem validation_accuracy_spec {D : Type} [LinearOrder D]
    (taskFiles files : List (VFile D)) (hne : files ≠ [])
    (hpred : ∀ f ∈ files, ((collectSome argmaxRow f.scores).bind mostCommon).isSome)
    (htrue : ∀ f ∈ files, (indexOf? f.domain (get_classes taskFiles)).isSome) :
    ∃ v, validation (get_classes taskFiles) files = some ("accuracy", false, v)
      ∧ v = mkRat (files.countP fun f =>
          decide (indexOf? f.domain (get_classes taskFiles)
            = (collectSome argmaxRow f.scores).bind mostCommon)) files.length
      ∧ 0 ≤ v ∧ v ≤ 1 := by
  have hp := collectSome_eq_filterMap
    (fun f : VFile D => (collectSome argmaxRow f.scores).bind mostCommon) files hpred
  have ht := collectSome_eq_filterMap
    (fun f : VFile D => indexOf? f.domain (get_classes taskFiles)) files htrue
  have hcount := zip_filterMap_countP
    (fun f : VFile D => indexOf? f.domain (get_classes taskFiles))
    (fun f : VFile D => (collectSome argmaxRow f.scores).bind mostCommon)
    files htrue hpred
  refine ⟨_, ?_, rfl, ?_, ?_⟩
  · rw [validation, if_neg (by simpa using hne), hp, ht]
    dsimp only
    rw [hcount]
  · rw [Rat.mkRat_eq_div]
    positivity
  · rw [Rat.mkRat_eq_div]
    have hlen : 0 < (files.length : ℚ) := by
      have : 0 < files.length := List.length_pos.mpr hne
      exact_mod_cast this
    rw [div_le_one hlen]
    have hle : (files.countP fun f =>
        decide (indexOf? f.domain (get_classes taskFiles)
          = (collectSome argmaxRow f.scores).bind mostCommon)) ≤ files.length :=
      List.countP_le_length _
    exact_mod_cast hle

/-- Witness for C10: one task file and two validated files over domains
`{5, 7}`; the first file's frames vote for class index 1 = index of domain 7,
the second file's frames vote for 0 but its domain 5 also has index 0. -/
theorem validation_accuracy_spec_witness :
    ∃ v, validation
        (get_classes [⟨[], 7⟩, ⟨[], (5 : Nat)⟩])
        [⟨[[(0 : ℚ), 1], [0, 1]], 7⟩, ⟨[[(1 : ℚ), 0]], 5⟩]
      = some ("accuracy", false, v)
      ∧ v = mkRat ([⟨[[(0 : ℚ), 1], [0, 1]], 7⟩,
            (⟨[[(1 : ℚ), 0]], 5⟩ : VFile Nat)].countP fun f =>
          decide (indexOf? f.domain (get_classes [⟨[], 7⟩, ⟨[], (5 : Nat)⟩])
            = (collectSome argmaxRow f.scores).bind mostCommon)) 2
      ∧ 0 ≤ v ∧ v ≤ 1 :=
  validation_accuracy_spec [⟨[], 7⟩, ⟨[], 5⟩]
    [⟨[[(0 : ℚ), 1], [0, 1]], 7⟩, ⟨[[(1 : ℚ), 0]], 5⟩]
    (List.cons_ne_nil _ _) (by decide) (by decide)

/-! ### Balanced sampler (`SpeakerEmbedding._validate_init_default`, lines 475-519)

The sampler groups the stored sequences by speech-turn id `z`
(`df.groupby('z')`, whose keys are the sorted distinct `z` values), takes one
representative label per group (`group.y.iloc[0]`), maps labels to numeric
class indices over the sorted distinct labels
(`np.unique(y_groups, return_inverse=True, return_counts=True)`), and for
each class draws `min(10, counts[speaker])` group positions uniformly at
random without replacement from `np.where(y == speaker)[0]`.  For each drawn
position `i` it fetches `z_groups.get_group(i)` — a lookup by group KEY `i`,
which matches the drawn position exactly when the distinct `z` values are
`0..G-1`, as every store produced by `SpeakerEmbedding.data` satisfies — and
appends the group's stacked sequences, its temporal midpoint sequence
`x[len(x) // 2]`, its member count, and its class index.  The random draw
itself is supplied by an oracle ranging over all valid without-replacement
outcomes; the uniform distribution is not modelled. -/

/-- Indices (in original order) of the sequences whose speech-turn id equals
`z` (`z_groups.get_group(z).index`). -/
def groupIdx (zs : List Nat) (z : Nat) : List Nat :=
  (List.range zs.length).filter (fun i => zs.getD i 0 = z)

/-- Speech-turn group keys in groupby order: the sorted distinct `z` values. -/
def zKeys (zs : List Nat) : List Nat :=
  (distinctFirst zs).insertionSort (· ≤ ·)

/-- Representative label of each group, in group order: the label of the
group's first member (`group.y.iloc[0]`); groups are nonempty by
construction, so the default is never used. -/
def yGroups {L : Type} [Inhabited L] (ys : List L) (zs : List Nat) : List L :=
  (zKeys zs).map (fun z => ys.getD ((groupIdx zs z).headD 0) default)

/-- Sorted distinct labels (`np.unique`). -/
def uniqueLabels {L : Type} [LinearOrder L] (ls : List L) : List L :=
  (distinctFirst ls).insertionSort (· ≤ ·)

/-- Numeric class index of each group (`return_inverse=True`). -/
def yInv {L : Type} [LinearOrder L] (ls : List L) : List Nat :=
  ls.map (fun l => (indexOf? l (uniqueLabels ls)).getD 0)

/-- Group positions belonging to class `c` (`np.where(y == speaker)[0]`);
its length is `counts[c]`. -/
def classGroups {L : Type} [LinearOrder L] (ls : List L) (c : Nat) : List Nat :=
  (List.range ls.length).filter (fun j => (yInv ls).getD j 0 = c)

/-- The four parallel outputs of the balanced sampler. -/
structure SamplerOut (α : Type) where
  XX : List α
  X : List α
  n : List Nat
  y : List Nat

/-- `SpeakerEmbedding._validate_init_default` with the outcome of each
`np.random.choice(np.where(y == speaker)[0], size=min(10, counts[speaker]),
replace=False)` supplied by the oracle `draws`. -/
def validateInitDefault {α L : Type} [LinearOrder L] [Inhabited L] [Inhabited α]
    (xs : List α) (ys : List L) (zs : List Nat) (draws : Nat → List Nat) :
    SamplerOut α :=
  let selected := ((List.range (uniqueLabels (yGroups ys zs)).length).map draws).flatten
  { XX := (selected.map (fun i => (groupIdx zs i).map (fun j => xs.getD j default))).flatten
    X := selected.map (fun i =>
      let g := (groupIdx zs i).map (fun j => xs.getD j default)
      g.getD (g.length / 2) default)
    n := selected.map (fun i => (groupIdx zs i).length)
    y := selected.map (fun i => (yInv (yGroups ys zs)).getD i 0) }

theorem mem_distinctFirstAux {A : Type} [DecidableEq A] :
    ∀ (l : List A) (seen : List A) (a : A), a ∈ distinctFirstAux seen l → a ∈ l := by
  intro l
  induction l with
  | nil => intro seen a h; exact absurd h (List.not_mem_nil a)
  | cons x xs ih =>
    intro seen a h
    by_cases hx : x ∈ seen
    · rw [distinctFirstAux, if_pos hx] at h
      exact List.mem_cons_of_mem x (ih seen a h)
    · rw [distinctFirstAux, if_neg hx] at h
      rcases List.mem_cons.mp h with rfl | h'
      · exact List.mem_cons_self a xs
      · exact List.mem_cons_of_mem x (ih (x :: seen) a h')

theorem groupIdx_ne_nil_of_mem (zs : List Nat) (z : Nat) (hz : z ∈ zs) :
    groupIdx zs z ≠ [] := by
  obtain ⟨j, hj, hval⟩ := List.mem_iff_getElem.mp hz
  have hmem : j ∈ groupIdx zs z := by
    rw [groupIdx, List.mem_filter, List.mem_range]
    refine ⟨hj, ?_⟩
    rw [List.getD_eq_getElem?_getD, List.getElem?_eq_getElem hj]
    simpa using hval
  exact List.ne_nil_of_mem hmem

/-- Claim C6: for every sequence store with contiguous group keys `0..G-1` and
every valid without-replacement draw, the sampler selects per class at most 10
groups, selects all of a class's groups when the class has fewer than 10, and
every selected position lies in the drawn class, is a valid (nonempty) group
key, and yields as outputs the group's stacked sequences, its temporal
midpoint `x[len(x) // 2]`, its member count, and its numeric class index. -/
theorem validateInitDefault_spec {α L : Type} [LinearOrder L] [Inhabited L]
    [Inhabited α] (xs : List α) (ys : List L) (zs : List Nat)
    (draws : Nat → List Nat)
    (hkeys : zKeys zs = List.range (zKeys zs).length)
    (hdraw : ∀ c < (uniqueLabels (yGroups ys zs)).length,
        (draws c).Nodup
        ∧ (draws c).length = min 10 (classGroups (yGroups ys zs) c).length
        ∧ ∀ i ∈ draws c, i ∈ classGroups (yGroups ys zs) c) :
    (∀ c, c < (uniqueLabels (yGroups ys zs)).length → (draws c).length ≤ 10)
    ∧ (∀ c, c < (uniqueLabels (yGroups ys zs)).length →
        (classGroups (yGroups ys zs) c).length < 10 →
          ∀ j ∈ classGroups (yGroups ys zs) c, j ∈ draws c)
    ∧ (∀ c, c < (uniqueLabels (yGroups ys zs)).length →
        ∀ i ∈ draws c,
          (yInv (yGroups ys zs)).getD i 0 = c
          ∧ i ∈ zKeys zs
          ∧ groupIdx zs i ≠ [])
    ∧ ((validateInitDefault xs ys zs draws).XX
        = ((((List.range (uniqueLabels (yGroups ys zs)).length).map draws).flatten).map
            (fun i => (groupIdx zs i).map (fun j => xs.getD j default))).flatten)
    ∧ (∀ (k i : Nat),
        (((List.range (uniqueLabels (yGroups ys zs)).length).map draws).flatten)[k]?
            = some i →
          (validateInitDefault xs ys zs draws).n[k]? = some (groupIdx zs i).length
          ∧ (validateInitDefault xs ys zs draws).X[k]?
              = some (let g := (groupIdx zs i).map (fun j => xs.getD j default)
                  g.getD (g.length / 2) default)
          ∧ (validateInitDefault xs ys zs draws).y[k]?
              = some ((yInv (yGroups ys zs)).getD i 0)) := by
  have hclass : ∀ c, c < (uniqueLabels (yGroups ys zs)).length →
      ∀ i ∈ draws c,
        (yInv (yGroups ys zs)).getD i 0 = c
        ∧ i ∈ zKeys zs
        ∧ groupIdx zs i ≠ [] := by
    intro c hc i hi
    have hmem := (hdraw c hc).2.2 i hi
    rw [classGroups, List.mem_filter, List.mem_range] at hmem
    obtain ⟨hlt, hval⟩ := hmem
    have hvc : (yInv (yGroups ys zs)).getD i 0 = c := by simpa using hval
    have hlen : (yGroups ys zs).length = (zKeys zs).length := by
      rw [yGroups, List.length_map]
    have hik : i ∈ zKeys zs := by
      rw [hkeys, List.mem_range]
      omega
    have hizs : i ∈ zs := by
      have h1 : i ∈ distinctFirst zs :=
        (List.mem_insertionSort (· ≤ ·)).mp hik
      exact mem_distinctFirstAux zs [] i h1
    exact ⟨hvc, hik, groupIdx_ne_nil_of_mem zs i hizs⟩
  refine ⟨?_, ?_, hclass, rfl, ?_⟩
  · intro c hc
    rw [(hdraw c hc).2.1]
    exact Nat.min_le_left 10 _
  · intro c hc hlt j hj
    obtain ⟨hnd, hlen, hsub⟩ := hdraw c hc
    have hsubset : draws c ⊆ classGroups (yGroups ys zs) c := fun x hx => hsub x hx
    have hsp : (draws c).Subperm (classGroups (yGroups ys zs) c) :=
      hnd.subperm hsubset
    have hperm : (draws c).Perm (classGroups (yGroups ys zs) c) := by
      refine hsp.perm_of_length_le ?_
      rw [hlen]
      omega
    exact hperm.mem_iff.mpr hj
  · intro k i hk
    refine ⟨?_, ?_, ?_⟩
    · rw [validateInitDefault]
      rw [List.getElem?_map, hk]
      rfl
    · rw [validateInitDefault]
      rw [List.getElem?_map, hk]
      rfl
    · rw [validateInitDefault]
      rw [List.getElem?_map, hk]
      rfl

/-- Witness for C6 at a concrete five-sequence store with three groups over
two label classes, drawing all groups of each class (both classes have fewer
than 10 groups): the drawn group position 2 is a group of class 0, a valid
nonempty group key. -/
theorem validateInitDefault_spec_witness :
    (yInv (yGroups ([0, 0, 1, 0, 0] : List Nat) [0, 0, 1, 2, 2])).getD 2 0 = 0
    ∧ 2 ∈ zKeys [0, 0, 1, 2, 2]
    ∧ groupIdx [0, 0, 1, 2, 2] 2 ≠ [] :=
  (validateInitDefault_spec [(10 : Nat), 20, 30, 40, 50]
      [(0 : Nat), 0, 1, 0, 0] [0, 0, 1, 2, 2]
      (fun c => if c = 0 then [0, 2] else [1])
      (by decide) (by decide)).2.2.1 0 (by decide) 2 (by decide)

/-! ### Verification-track enrolment/trial cache
(`SpeakerEmbedding._validate_epoch_verification`, lines 569-621)

The enrolment pass stores, per enrolment, the averaged embedding vector under
its `model_id` (`enrolment_models[model_id] = np.mean(...)`) and the content
hash of `(unique identifier, tuple(enrol_with))` under `enrolment_khashes`.
The trial loop hashes `(unique identifier, tuple(try_with))`; on a hit in
`enrolment_khashes` it reuses the enrolment's averaged vector, on a hit in
`trial_models` it reuses the cached trial vector, and otherwise it computes a
fresh averaged vector and caches it under the hash.  The Python `hash` maps
equal `(uid, span)` tuples to equal hashes, so for the positive reuse claim
the cache key is modelled by the `(uid, span)` pair itself; the averaging
pipeline (`sequence_embedding.apply` then `crop` then `np.mean`) is
abstracted by the function `avg` on the protocol item. -/

/-- A record of a verification protocol subset: an enrolment (`span` is
`enrol_with`) or a trial (`span` is `try_with`). -/
structure ProtocolItem (U T : Type) where
  model_id : Nat
  uid : U
  span : T
  deriving DecidableEq

/-- Python dict assignment `d[k] = v`: overwrite an existing key's value,
otherwise append the new entry. -/
def insertOverwrite {K W : Type} [DecidableEq K] (k : K) (v : W) :
    List (K × W) → List (K × W)
  | [] => [(k, v)]
  | (k', v') :: rest =>
    if k' = k then (k, v) :: rest else (k', v') :: insertOverwrite k v rest

/-- The enrolment pass: builds `enrolment_models` (model id to averaged
vector) and `enrolment_khashes` (content key to model id) in iteration
order. -/
def enrolMaps {U T V : Type} [DecidableEq U] [DecidableEq T]
    (avg : ProtocolItem U T → V) (es : List (ProtocolItem U T)) :
    List (Nat × V) × List ((U × T) × Nat) :=
  es.foldl (fun maps e =>
    (insertOverwrite e.model_id (avg e) maps.1,
     insertOverwrite (e.uid, e.span) e.model_id maps.2)) ([], [])

/-- One trial's outcome: the vector used for it (`none` models the impossible
`KeyError` on `enrolment_models`), and whether a fresh embedding was
computed. -/
def trialStep {U T V : Type} [DecidableEq U] [DecidableEq T]
    (em : List (Nat × V)) (ek : List ((U × T) × Nat))
    (avg : ProtocolItem U T → V) (cache : List ((U × T) × V))
    (t : ProtocolItem U T) : Option V × Bool :=
  match alookup (t.uid, t.span) ek with
  | some mid => (alookup mid em, false)
  | none =>
    match alookup (t.uid, t.span) cache with
    | some m => (some m, false)
    | none => (some (avg t), true)

/-- The `trial_models` cache after one trial. -/
def trialCacheStep {U T V : Type} [DecidableEq U] [DecidableEq T]
    (ek : List ((U × T) × Nat)) (avg : ProtocolItem U T → V)
    (cache : List ((U × T) × V)) (t : ProtocolItem U T) :
    List ((U × T) × V) :=
  match alookup (t.uid, t.span) ek with
  | some _ => cache
  | none =>
    match alookup (t.uid, t.span) cache with
    | some _ => cache
    | none => insertOverwrite (t.uid, t.span) (avg t) cache

/-- The trial loop of `_validate_epoch_verification`: per trial, the used
vector and whether it was freshly computed. -/
def runTrials {U T V : Type} [DecidableEq U] [DecidableEq T]
    (em : List (Nat × V)) (ek : List ((U × T) × Nat))
    (avg : ProtocolItem U T → V) :
    List ((U × T) × V) → List (ProtocolItem U T) → List (Option V × Bool)
  | _, [] => []
  | cache, t :: ts =>
    trialStep em ek avg cache t
      :: runTrials em ek avg (trialCacheStep ek avg cache t) ts

theorem alookup_insertOverwrite {K W : Type} [DecidableEq K]
    (k k' : K) (v : W) (d : List (K × W)) :
    alookup k (insertOverwrite k' v d)
      = if k = k' then some v else alookup k d := by
  induction d with
  | nil => simp [insertOverwrite, alookup]
  | cons p rest ih =>
    obtain ⟨a, b⟩ := p
    by_cases h1 : a = k'
    · subst h1
      simp only [insertOverwrite, if_pos rfl, alookup]
      by_cases hk : k = a <;> simp [hk]
    · simp only [insertOverwrite, if_neg h1, alookup, ih]
      by_cases hk : k = a
      · subst hk
        simp [h1]
      · simp [hk]

theorem runTrials_length {U T V : Type} [DecidableEq U] [DecidableEq T]
    (em : List (Nat × V)) (ek : List ((U × T) × Nat))
    (avg : ProtocolItem U T → V) :
    ∀ (ts : List (ProtocolItem U T)) (cache : List ((U × T) × V)),
      (runTrials em ek avg cache ts).length = ts.length := by
  intro ts
  induction ts with
  | nil => intro cache; rfl
  | cons t ts ih => intro cache; simp [runTrials, ih]

theorem runTrials_ek_hit {U T V : Type} [DecidableEq U] [DecidableEq T]
    (em : List (Nat × V)) (ek : List ((U × T) × Nat))
    (avg : ProtocolItem U T → V) :
    ∀ (ts : List (ProtocolItem U T)) (cache : List ((U × T) × V))
      (j : Nat) (tj : ProtocolItem U T) (mid : Nat),
      ts[j]? = some tj → alookup (tj.uid, tj.span) ek = some mid →
        (runTrials em ek avg cache ts)[j]? = some (alookup mid em, false) := by
  intro ts
  induction ts with
  | nil => intro cache j tj mid hj _; simp at hj
  | cons t ts ih =>
    intro cache j tj mid hj hek
    cases j with
    | zero =>
      simp only [List.getElem?_cons_zero, Option.some.injEq] at hj
      subst hj
      simp [runTrials, trialStep, hek]
    | succ j' =>
      have hj' : ts[j']? = some tj := by simpa using hj
      simp only [runTrials, List.getElem?_cons_succ]
      exact ih (trialCacheStep ek avg cache t) j' tj mid hj' hek

theorem runTrials_cache_stable {U T V : Type} [DecidableEq U] [DecidableEq T]
    (em : List (Nat × V)) (ek : List ((U × T) × Nat))
    (avg : ProtocolItem U T → V) :
    ∀ (ts : List (ProtocolItem U T)) (cache : List ((U × T) × V))
      (h : U × T) (v : V),
      alookup h ek = none → alookup h cache = some v →
        ∀ (j : Nat) (tj : ProtocolItem U T),
          ts[j]? = some tj → (tj.uid, tj.span) = h →
            (runTrials em ek avg cache ts)[j]? = some (some v, false) := by
  intro ts
  induction ts with
  | nil => intro cache h v _ _ j tj hj _; simp at hj
  | cons t ts ih =>
    intro cache h v hek hcache j tj hj hkey
    have hstable : alookup h (trialCacheStep ek avg cache t) = some v := by
      rw [trialCacheStep]
      rcases hek1 : alookup (t.uid, t.span) ek with _ | mid
      · rcases hc1 : alookup (t.uid, t.span) cache with _ | m
        · rw [alookup_insertOverwrite]
          have hne : h ≠ (t.uid, t.span) := by
            intro heq
            rw [heq] at hcache
            rw [hcache] at hc1
            exact Option.noConfusion hc1
          rw [if_neg hne]
          exact hcache
        · exact hcache
      · exact hcache
    cases j with
    | zero =>
      simp only [List.getElem?_cons_zero, Option.some.injEq] at hj
      subst hj
      simp only [runTrials, List.getElem?_cons_zero, trialStep, hkey, hek, hcache]
    | succ j' =>
      have hj' : ts[j']? = some tj := by simpa using hj
      simp only [runTrials, List.getElem?_cons_succ]
      exact ih (trialCacheStep ek avg cache t) h v hek hstable j' tj hj' hkey

/-- Claim C8: in the verification track, for every pair of trials with
identical file unique identifier and identical time span, the second trial
reuses the vector used for the first (from the enrolment cache or the trial
cache) without recomputing it; and a trial whose `(uid, span)` matches an
enrolment's content key reuses the enrolment's cached averaged vector. -/
theorem verification_cache_reuse {U T V : Type} [DecidableEq U] [DecidableEq T]
    (avgE avgT : ProtocolItem U T → V)
    (es ts : List (ProtocolItem U T)) :
    ((runTrials (enrolMaps avgE es).1 (enrolMaps avgE es).2 avgT [] ts).length
        = ts.length)
    ∧ (∀ (i j : Nat) (ti tj : ProtocolItem U T), i < j →
        ts[i]? = some ti → ts[j]? = some tj →
        (ti.uid, ti.span) = (tj.uid, tj.span) →
          ∃ m bi,
            (runTrials (enrolMaps avgE es).1 (enrolMaps avgE es).2 avgT [] ts)[i]?
              = some (m, bi)
            ∧ (runTrials (enrolMaps avgE es).1 (enrolMaps avgE es).2 avgT [] ts)[j]?
              = some (m, false))
    ∧ (∀ (j : Nat) (tj : ProtocolItem U T) (mid : Nat),
        ts[j]? = some tj →
        alookup (tj.uid, tj.span) (enrolMaps avgE es).2 = some mid →
          (runTrials (enrolMaps avgE es).1 (enrolMaps avgE es).2 avgT [] ts)[j]?
            = some (alookup mid (enrolMaps avgE es).1, false)) := by
  set em := (enrolMaps avgE es).1 with hem
  set ek := (enrolMaps avgE es).2 with hekdef
  refine ⟨runTrials_length em ek avgT ts [], ?_,
    fun j tj mid hj hek => runTrials_ek_hit em ek avgT ts [] j tj mid hj hek⟩
  suffices hgen : ∀ (ts : List (ProtocolItem U T)) (cache : List ((U × T) × V))
      (i j : Nat) (ti tj : ProtocolItem U T), i < j →
      ts[i]? = some ti → ts[j]? = some tj →
      (ti.uid, ti.span) = (tj.uid, tj.span) →
        ∃ m bi,
          (runTrials em ek avgT cache ts)[i]? = some (m, bi)
          ∧ (runTrials em ek avgT cache ts)[j]? = some (m, false) by
    intro i j ti tj hij hi hj hkey
    exact hgen ts [] i j ti tj hij hi hj hkey
  intro ts
  induction ts with
  | nil => intro cache i j ti tj _ hi _ _; simp at hi
  | cons t ts ih =>
    intro cache i j ti tj hij hi hj hkey
    cases i with
    | zero =>
      simp only [List.getElem?_cons_zero, Option.some.injEq] at hi
      subst hi
      obtain ⟨j', rfl⟩ : ∃ j', j = j' + 1 := ⟨j - 1, by omega⟩
      have hj' : ts[j']? = some tj := by simpa using hj
      simp only [runTrials, List.getElem?_cons_zero, List.getElem?_cons_succ]
      rcases hek1 : alookup (t.uid, t.span) ek with _ | mid
      · rcases hc1 : alookup (t.uid, t.span) cache with _ | m
        · refine ⟨some (avgT t), true, ?_, ?_⟩
          · simp [trialStep, hek1, hc1]
          · have hstep : alookup (t.uid, t.span)
                (trialCacheStep ek avgT cache t) = some (avgT t) := by
              simp only [trialCacheStep, hek1, hc1]
              rw [alookup_insertOverwrite, if_pos rfl]
            exact runTrials_cache_stable em ek avgT ts
              (trialCacheStep ek avgT cache t) (t.uid, t.span) (avgT t)
              hek1 hstep j' tj hj' hkey.symm
        · refine ⟨some m, false, ?_, ?_⟩
          · simp [trialStep, hek1, hc1]
          · have hstep : alookup (t.uid, t.span)
                (trialCacheStep ek avgT cache t) = some m := by
              simp only [trialCacheStep, hek1, hc1]
            exact runTrials_cache_stable em ek avgT ts
              (trialCacheStep ek avgT cache t) (t.uid, t.span) m
              hek1 hstep j' tj hj' hkey.symm
      · refine ⟨alookup mid em, false, ?_, ?_⟩
        · simp [trialStep, hek1]
        · exact runTrials_ek_hit em ek avgT ts
            (trialCacheStep ek avgT cache t) j' tj mid hj' (hkey ▸ hek1)
    | succ i' =>
      obtain ⟨j', rfl⟩ : ∃ j', j = j' + 1 := ⟨j - 1, by omega⟩
      have hi' : ts[i']? = some ti := by simpa using hi
      have hj' : ts[j']? = some tj := by simpa using hj
      simp only [runTrials, List.getElem?_cons_succ]
      exact ih (trialCacheStep ek avgT cache t) i' j' ti tj (by omega) hi' hj' hkey

/-- Witness for C8: one enrolment and two trials sharing the content key
`(uid 200, span 3)`; the second trial reuses the first trial's cached vector
without recomputing. -/
theorem verification_cache_reuse_witness :
    ∃ m bi,
      (runTrials (enrolMaps (fun e => e.uid) [(⟨1, 100, 5⟩ : ProtocolItem Nat Nat)]).1
          (enrolMaps (fun e => e.uid) [(⟨1, 100, 5⟩ : ProtocolItem Nat Nat)]).2
          (fun t => t.uid + t.span) []
          [⟨7, 200, 3⟩, ⟨8, 200, 3⟩])[0]?
        = some (m, bi)
      ∧ (runTrials (enrolMaps (fun e => e.uid) [(⟨1, 100, 5⟩ : ProtocolItem Nat Nat)]).1
          (enrolMaps (fun e => e.uid) [(⟨1, 100, 5⟩ : ProtocolItem Nat Nat)]).2
          (fun t => t.uid + t.span) []
          [⟨7, 200, 3⟩, ⟨8, 200, 3⟩])[1]?
        = some (m, false) :=
  (verification_cache_reuse (fun e => e.uid) (fun t => t.uid + t.span)
      [(⟨1, 100, 5⟩ : ProtocolItem Nat Nat)] [⟨7, 200, 3⟩, ⟨8, 200, 3⟩]).2.1
    0 1 ⟨7, 200, 3⟩ ⟨8, 200, 3⟩ (by decide) (by decide) (by decide) (by decide)

/-! ### Directory-name encoding and decoding
(`SpeakerEmbedding._params_to_directory`, lines 262-277, and
`SpeakerEmbedding._directory_to_params`, lines 283-294)

The encoder renders `min_duration`, `duration` and `step` with Python's
`'{:g}'` format (6 significant digits; fixed notation when the decimal
exponent is in `[-4, 5]`, otherwise scientific notation with a sign and an
at-least-two-digit exponent; trailing zeros stripped), joined as
`[min_duration-]duration[+step][x]`.  The decoder strips a trailing `'x'`,
splits on `'+'` and `'-'`, and applies Python `float()` to the pieces.
Numbers are modelled as exact rationals (the binary-double rounding of
Python floats is idealized away); directory strings are lists of
characters. -/

/-- Strip trailing zero characters (the `%g` format removes trailing zeros
of the fractional part). -/
def stripTrailingZeros (l : List Char) : List Char :=
  (l.reverse.dropWhile (fun c => c = '0')).reverse

/-- Round `a / b` (with `b > 0`) to the nearest natural, halves to even
(the rounding used when a value is formatted to 6 significant digits). -/
def rheNat (a b : Nat) : Nat :=
  let quo := a / b
  let rem := a % b
  if 2 * rem < b then quo
  else if 2 * rem > b then quo + 1
  else if quo % 2 = 0 then quo else quo + 1

/-- Decimal exponent of the positive rational `num / den`: the unique `e`
with `10 ^ e ≤ num / den < 10 ^ (e + 1)`. -/
def decExpPos (num den : Nat) : Int :=
  if den ≤ num then ((Nat.toDigits 10 (num / den)).length : Int) - 1
  else -(((Nat.toDigits 10 ((den + num - 1) / num - 1)).length : Int))

/-- Python `'{:g}'` formatting of the positive rational `num / den`
(`num, den ≥ 1`). -/
def gfmtPos (num den : Nat) : List Char :=
  let e0 := decExpPos num den
  let m0 := if e0 ≤ 5 then rheNat (num * 10 ^ (5 - e0).toNat) den
            else rheNat num (den * 10 ^ (e0 - 5).toNat)
  let m := if m0 = 10 ^ 6 then 10 ^ 5 else m0
  let e := if m0 = 10 ^ 6 then e0 + 1 else e0
  let ds := Nat.toDigits 10 m
  if -4 ≤ e ∧ e ≤ 5 then
    if 0 ≤ e then
      let ip := ds.take (e.toNat + 1)
      let fp := stripTrailingZeros (ds.drop (e.toNat + 1))
      ip ++ (if fp = [] then [] else '.' :: fp)
    else
      '0' :: '.' :: List.replicate ((-e).toNat - 1) '0' ++ stripTrailingZeros ds
  else
    let mant := ds.headD '0' ::
      (let rest := stripTrailingZeros ds.tail
       if rest = [] then [] else '.' :: rest)
    let eds := Nat.toDigits 10 e.natAbs
    mant ++ 'e' :: (if e < 0 then '-' else '+')
      :: (if eds.length < 2 then '0' :: eds else eds)

/-- Python `'{:g}'.format(q)` on an exact rational. -/
def gfmt (q : ℚ) : List Char :=
  if q.num = 0 then ['0']
  else (if q.num < 0 then ['-'] else []) ++ gfmtPos q.num.natAbs q.den

/-- Numeric value of a string of decimal digits. -/
def digitsVal (l : List Char) : Nat :=
  l.foldl (fun acc c => acc * 10 + (c.toNat - '0'.toNat)) 0

/-- Python `float()` on a string: optional sign, decimal digits with an
optional point, optional exponent part; anything else raises `ValueError`
(modelled as `none`).  The result is the exact decimal value. -/
def pyfloat (s : List Char) : Option ℚ :=
  let mant := s.takeWhile (fun c => ¬ (c = 'e' ∨ c = 'E'))
  let rest := s.dropWhile (fun c => ¬ (c = 'e' ∨ c = 'E'))
  let (sgn, mant') :=
    match mant with
    | '+' :: r => ((1 : Int), r)
    | '-' :: r => ((-1 : Int), r)
    | r => ((1 : Int), r)
  let ip := mant'.takeWhile (fun c => c ≠ '.')
  let fp' := mant'.dropWhile (fun c => c ≠ '.')
  let fp := if fp' = [] then [] else fp'.tail
  if ¬ (ip.all Char.isDigit) ∨ ¬ (fp.all Char.isDigit)
      ∨ (ip = [] ∧ fp = []) then none
  else
    let expPart : Option Int :=
      match rest with
      | [] => some 0
      | _ :: er =>
        let (esgn, eds) :=
          match er with
          | '+' :: r => ((1 : Int), r)
          | '-' :: r => ((-1 : Int), r)
          | r => ((1 : Int), r)
        if eds = [] ∨ ¬ (eds.all Char.isDigit) then none
        else some (esgn * (digitsVal eds : Int))
    match expPart with
    | none => none
    | some ex =>
      let L := fp.length
      let M := digitsVal ip * 10 ^ L + digitsVal fp
      some (mkRat (sgn * (M * 10 ^ (max ex 0).toNat : Nat))
        (10 ^ L * 10 ^ (max (-ex) 0).toNat))

/-- `SpeakerEmbedding._params_to_directory` with `skip_unlabeled = True`
(the default; `False` raises `NotImplementedError`). -/
def paramsToDirectory (duration : ℚ) (min_duration step : Option ℚ)
    (heterogeneous : Bool) : List Char :=
  (match min_duration with
   | none => []
   | some md => gfmt md ++ ['-'])
  ++ gfmt duration
  ++ (match step with
      | none => []
      | some st => '+' :: gfmt st)
  ++ (if heterogeneous then ['x'] else [])

/-- Python `str.split` with a single-character separator: splits at every
occurrence, keeping empty pieces. -/
def splitOnChar (sep : Char) : List Char → List (List Char)
  | [] => [[]]
  | c :: rest =>
    match splitOnChar sep rest with
    | [] => [[]]
    | h :: t => if c = sep then [] :: h :: t else (c :: h) :: t

/-- Body of `_directory_to_params` after the trailing `'x'` has been
handled: splits on `'+'` (a second token is the step), splits the first
token on `'-'` (two tokens are min_duration and duration), and parses the
pieces with `float()`; a parse failure (`ValueError`) is `none`. -/
def decodeBody (dir' : List Char) (het : Bool) :
    Option (ℚ × Option ℚ × Option ℚ × Bool) :=
  let tokens := splitOnChar '+' dir'
  do
    let step ← if tokens.length = 2
      then (pyfloat (tokens.getD 1 [])).map some
      else pure none
    let toks2 := splitOnChar '-' (tokens.headD [])
    let md ← if toks2.length = 2
      then (pyfloat (toks2.getD 0 [])).map some
      else pure none
    let dur ← if toks2.length = 1
      then pyfloat (toks2.getD 0 [])
      else pyfloat (toks2.getD 1 [])
    pure (dur, md, step, het)

/-- `SpeakerEmbedding._directory_to_params`: reads the heterogeneous flag
from the last character (`IndexError`, i.e. `none`, on an empty name),
strips a trailing `'x'`, and decodes the rest. -/
def directoryToParams (dir : List Char) :
    Option (ℚ × Option ℚ × Option ℚ × Bool) :=
  match dir.getLast? with
  | none => none
  | some c =>
    decodeBody (if c = 'x' then dir.dropLast else dir) (decide (c = 'x'))

/-- Claim C3 (counterexample): for `duration = 10000000` (`1e7` seconds,
with no min_duration, no step, heterogeneous off), `%g` renders the duration
in scientific notation as `1e+07`; decoding splits it on `'+'` into `1e` and
`07`, and `float('1e')` raises `ValueError`, so decoding does not return the
original parameters. -/
theorem directoryToParams_not_left_inverse :
    paramsToDirectory 10000000 none none false = ['1', 'e', '+', '0', '7']
    ∧ directoryToParams (paramsToDirectory 10000000 none none false) = none := by
  refine ⟨by decide, by decide⟩

/-- A plain decimal numeral: nonempty, containing only digits and points.
Every `%g` rendering of a nonnegative value inside the fixed-notation range
has this shape; scientific renderings and negative values do not. -/
def plainNum (l : List Char) : Prop :=
  l ≠ [] ∧ ∀ c ∈ l, c.isDigit ∨ c = '.'

theorem plainNum_not_mem {l : List Char} (h : plainNum l) {ch : Char}
    (hch : ¬ (ch.isDigit ∨ ch = '.')) : ch ∉ l :=
  fun hm => hch (h.2 ch hm)

theorem plainNum_getLast {l : List Char} (h : plainNum l) :
    ∃ c, l.getLast? = some c ∧ (c.isDigit ∨ c = '.') := by
  rcases hlast : l.getLast? with _ | c
  · rw [List.getLast?_eq_none_iff] at hlast
    exact absurd hlast h.1
  · exact ⟨c, rfl, h.2 c (List.mem_of_getLast?_eq_some hlast)⟩

theorem splitOnChar_ne_nil (sep : Char) : ∀ l : List Char, splitOnChar sep l ≠ [] := by
  intro l
  induction l with
  | nil => simp [splitOnChar]
  | cons c rest ih =>
    simp only [splitOnChar]
    rcases h : splitOnChar sep rest with _ | ⟨hd, tl⟩
    · exact absurd h ih
    · by_cases hc : c = sep <;> simp [hc]

theorem splitOnChar_of_not_mem (sep : Char) :
    ∀ l : List Char, sep ∉ l → splitOnChar sep l = [l] := by
  intro l
  induction l with
  | nil => intro _; rfl
  | cons c rest ih =>
    intro h
    have hc : ¬ c = sep := fun hq => h (hq ▸ List.mem_cons_self c rest)
    have hrest : sep ∉ rest := fun hm => h (List.mem_cons_of_mem c hm)
    simp only [splitOnChar, ih hrest]
    rw [if_neg hc]

theorem splitOnChar_append (sep : Char) :
    ∀ l₁ l₂ : List Char, sep ∉ l₁ →
      splitOnChar sep (l₁ ++ sep :: l₂) = l₁ :: splitOnChar sep l₂ := by
  intro l₁
  induction l₁ with
  | nil =>
    intro l₂ _
    rcases h : splitOnChar sep l₂ with _ | ⟨hd, tl⟩
    · exact absurd h (splitOnChar_ne_nil sep l₂)
    · simp [splitOnChar, h]
  | cons c l₁ ih =>
    intro l₂ h
    have hc : ¬ c = sep := fun hq => h (hq ▸ List.mem_cons_self c l₁)
    have hl₁ : sep ∉ l₁ := fun hm => h (List.mem_cons_of_mem c hm)
    rw [List.cons_append]
    have hi := ih l₂ hl₁
    simp only [splitOnChar]
    rw [show splitOnChar sep (l₁ ++ sep :: l₂) = l₁ :: splitOnChar sep l₂ from hi]
    dsimp only
    rw [if_neg hc]

theorem directoryToParams_strip (base : List Char) (c : Char) (het : Bool)
    (hlast : base.getLast? = some c) (hc : ¬ c = 'x') :
    directoryToParams (base ++ (if het then ['x'] else []))
      = decodeBody base het := by
  cases het with
  | false =>
    simp only [Bool.false_eq_true, if_false, List.append_nil, directoryToParams,
      hlast]
    rw [if_neg hc]
    simp [hc]
  | true =>
    simp only [if_true, directoryToParams, List.getLast?_concat]
    simp [List.dropLast_concat]

/-- Claim C3 (amended): on every parameter combination in which each present
numeric parameter is rendered by `%g` as a plain decimal numeral (no sign, no
exponent) that `float()` parses back to the same value — i.e. values needing
at most 6 significant digits whose magnitude keeps `%g` in fixed notation —
decoding the encoded directory name returns exactly the original parameters. -/
theorem directoryToParams_paramsToDirectory (d : ℚ) (md st : Option ℚ)
    (het : Bool)
    (hd1 : plainNum (gfmt d)) (hd2 : pyfloat (gfmt d) = some d)
    (hmd : ∀ m, md = some m → plainNum (gfmt m) ∧ pyfloat (gfmt m) = some m)
    (hst : ∀ s, st = some s → plainNum (gfmt s) ∧ pyfloat (gfmt s) = some s) :
    directoryToParams (paramsToDirectory d md st het)
      = some (d, md, st, het) := by
  have hxd : ¬ (('x' : Char).isDigit ∨ ('x' : Char) = '.') := by decide
  have hpd : ¬ (('+' : Char).isDigit ∨ ('+' : Char) = '.') := by decide
  have hdd : ¬ (('-' : Char).isDigit ∨ ('-' : Char) = '.') := by decide
  rcases md with _ | m
  · rcases st with _ | s
    · obtain ⟨c, hc, hcd⟩ := plainNum_getLast hd1
      have hcx : ¬ c = 'x' := fun h => absurd (h ▸ hcd) hxd
      have henc : paramsToDirectory d none none het
          = gfmt d ++ (if het then ['x'] else []) := by
        simp [paramsToDirectory]
      rw [henc, directoryToParams_strip _ c het hc hcx]
      have ht1 : splitOnChar '+' (gfmt d) = [gfmt d] :=
        splitOnChar_of_not_mem _ _ (plainNum_not_mem hd1 hpd)
      have ht2 : splitOnChar '-' (gfmt d) = [gfmt d] :=
        splitOnChar_of_not_mem _ _ (plainNum_not_mem hd1 hdd)
      simp only [decodeBody]
      rw [ht1]
      simp [ht2, hd2]
    · obtain ⟨hs1, hs2⟩ := hst s rfl
      obtain ⟨c, hc, hcd⟩ := plainNum_getLast hs1
      have hcx : ¬ c = 'x' := fun h => absurd (h ▸ hcd) hxd
      have henc : paramsToDirectory d none (some s) het
          = (gfmt d ++ '+' :: gfmt s) ++ (if het then ['x'] else []) := by
        simp [paramsToDirectory]
      have hlast : (gfmt d ++ '+' :: gfmt s).getLast? = some c := by
        rw [show gfmt d ++ '+' :: gfmt s = (gfmt d ++ ['+']) ++ gfmt s by simp,
          List.getLast?_append_of_ne_nil _ hs1.1, hc]
      rw [henc, directoryToParams_strip _ c het hlast hcx]
      have ht1 : splitOnChar '+' (gfmt d ++ '+' :: gfmt s) = [gfmt d, gfmt s] := by
        rw [splitOnChar_append _ _ _ (plainNum_not_mem hd1 hpd),
          splitOnChar_of_not_mem _ _ (plainNum_not_mem hs1 hpd)]
      have ht2 : splitOnChar '-' (gfmt d) = [gfmt d] :=
        splitOnChar_of_not_mem _ _ (plainNum_not_mem hd1 hdd)
      simp only [decodeBody]
      rw [ht1]
      simp [ht2, hd2, hs2]
  · obtain ⟨hm1, hm2⟩ := hmd m rfl
    rcases st with _ | s
    · obtain ⟨c, hc, hcd⟩ := plainNum_getLast hd1
      have hcx : ¬ c = 'x' := fun h => absurd (h ▸ hcd) hxd
      have henc : paramsToDirectory d (some m) none het
          = (gfmt m ++ '-' :: gfmt d) ++ (if het then ['x'] else []) := by
        simp [paramsToDirectory]
      have hlast : (gfmt m ++ '-' :: gfmt d).getLast? = some c := by
        rw [show gfmt m ++ '-' :: gfmt d = (gfmt m ++ ['-']) ++ gfmt d by simp,
          List.getLast?_append_of_ne_nil _ hd1.1, hc]
      rw [henc, directoryToParams_strip _ c het hlast hcx]
      have ht1 : splitOnChar '+' (gfmt m ++ '-' :: gfmt d)
          = [gfmt m ++ '-' :: gfmt d] := by
        refine splitOnChar_of_not_mem _ _ ?_
        intro hmem
        rcases List.mem_append.mp hmem with h | h
        · exact plainNum_not_mem hm1 hpd h
        · rcases List.mem_cons.mp h with h | h
          · exact absurd h (by decide)
          · exact plainNum_not_mem hd1 hpd h
      have ht2 : splitOnChar '-' (gfmt m ++ '-' :: gfmt d) = [gfmt m, gfmt d] := by
        rw [splitOnChar_append _ _ _ (plainNum_not_mem hm1 hdd),
          splitOnChar_of_not_mem _ _ (plainNum_not_mem hd1 hdd)]
      simp only [decodeBody]
      rw [ht1]
      simp only [List.headD, List.getD]
      rw [ht2]
      simp [hd2, hm2]
    · obtain ⟨hs1, hs2⟩ := hst s rfl
      obtain ⟨c, hc, hcd⟩ := plainNum_getLast hs1
      have hcx : ¬ c = 'x' := fun h => absurd (h ▸ hcd) hxd
      have henc : paramsToDirectory d (some m) (some s) het
          = ((gfmt m ++ '-' :: gfmt d) ++ '+' :: gfmt s)
            ++ (if het then ['x'] else []) := by
        simp [paramsToDirectory]
      have hlast : ((gfmt m ++ '-' :: gfmt d) ++ '+' :: gfmt s).getLast? = some c := by
        rw [show (gfmt m ++ '-' :: gfmt d) ++ '+' :: gfmt s
            = ((gfmt m ++ '-' :: gfmt d) ++ ['+']) ++ gfmt s by simp,
          List.getLast?_append_of_ne_nil _ hs1.1, hc]
      rw [henc, directoryToParams_strip _ c het hlast hcx]
      have hnp : '+' ∉ gfmt m ++ '-' :: gfmt d := by
        intro hmem
        rcases List.mem_append.mp hmem with h | h
        · exact plainNum_not_mem hm1 hpd h
        · rcases List.mem_cons.mp h with h | h
          · exact absurd h (by decide)
          · exact plainNum_not_mem hd1 hpd h
      have ht1 : splitOnChar '+' ((gfmt m ++ '-' :: gfmt d) ++ '+' :: gfmt s)
          = [gfmt m ++ '-' :: gfmt d, gfmt s] := by
        rw [splitOnChar_append _ _ _ hnp,
          splitOnChar_of_not_mem _ _ (plainNum_not_mem hs1 hpd)]
      have ht2 : splitOnChar '-' (gfmt m ++ '-' :: gfmt d) = [gfmt m, gfmt d] := by
        rw [splitOnChar_append _ _ _ (plainNum_not_mem hm1 hdd),
          splitOnChar_of_not_mem _ _ (plainNum_not_mem hd1 hdd)]
      simp only [decodeBody]
      rw [ht1]
      simp only [List.headD, List.getD]
      rw [ht2]
      simp [hd2, hm2, hs2]

instance (l : List Char) : Decidable (plainNum l) :=
  inferInstanceAs (Decidable (l ≠ [] ∧ ∀ c ∈ l, c.isDigit ∨ c = '.'))

/-- Witness for C3's amended theorem at `duration = 3.2`,
`min_duration = 1`, `step = 0.8`, `heterogeneous = true`
(encoded as `1-3.2+0.8x`). -/
theorem directoryToParams_paramsToDirectory_witness :
    directoryToParams (paramsToDirectory (mkRat 16 5) (some 1) (some (mkRat 4 5)) true)
      = some (mkRat 16 5, some 1, some (mkRat 4 5), true) :=
  directoryToParams_paramsToDirectory (mkRat 16 5) (some 1) (some (mkRat 4 5)) true
    (by decide) (by decide)
    (by intro m hm; cases hm; exact ⟨by decide, by decide⟩)
    (by intro s hs; cases hs; exact ⟨by decide, by decide⟩)

end DiarizationPyannote
